import Mathlib

/-!
Verification development for the `mapaEmpatia` retrieval server (`server.js`).

The JavaScript source is shallowly embedded here:
* strings are Lean `String`s, manipulated through their `List Char` data
  (`toLowerCase` becomes an ASCII `lowerChar` map, `split(/\s+/)` becomes
  `wsTokens`, `join(' ')` becomes `joinSp`, counting global regex matches of
  an escaped literal term becomes `countOccur`, `includes` becomes `isSubL`);
* `scoreProject`, `getTopContext`, the `/api/chat` handler, the context
  snippets and the KPI struct are translated function by function;
* JavaScript's stable `Array.prototype.sort` with comparator `b.s - a.s` is
  modelled by the stable descending insertion sort `sortDesc`, and
  `Array.prototype.slice(0, k)` (with its negative-index semantics) by
  `jsSlice`;
* truthiness tests on strings/undefined (`x || fallback`, `filter(Boolean)`)
  become emptiness/`Option` tests, and on numbers (`progress || 'N/D'`) a
  zero test;
* the OpenAI SDK call is an opaque input: either it throws (`.failure`) or
  returns an optional message content (`.success`).

Recursions are written with an explicit fuel argument equal to the input
length, so that every definition is structurally recursive and evaluates by
kernel reduction.
-/

/-- ASCII lowercasing of one character, as `String.prototype.toLowerCase`
acts on the ASCII range. -/
def lowerChar (c : Char) : Char :=
  if 65 ≤ c.toNat ∧ c.toNat ≤ 90 then Char.ofNat (c.toNat + 32) else c

/-- Lowercase a character list. -/
def lowerL (s : List Char) : List Char := s.map lowerChar

/-- Fuel-driven worker for `countOccur`. -/
def countOccurAux (pat : List Char) : Nat → List Char → Nat
  | 0, _ => 0
  | _ + 1, [] => 0
  | fuel + 1, c :: rest =>
    if pat.isPrefixOf (c :: rest) then
      1 + countOccurAux pat fuel (rest.drop (pat.length - 1))
    else
      countOccurAux pat fuel rest

/-- Number of non-overlapping left-to-right occurrences of `pat` in `s`:
the length of `s.match(new RegExp(escape(pat), 'g'))` in the source.
Only invoked on non-empty patterns (empty terms are skipped). -/
def countOccur (pat s : List Char) : Nat := countOccurAux pat s.length s

/-- Fuel-driven worker for `wsTokens`. -/
def wsTokensAux : Nat → List Char → List (List Char)
  | 0, _ => []
  | _ + 1, [] => []
  | fuel + 1, c :: cs =>
    if c.isWhitespace then wsTokensAux fuel cs
    else (c :: cs.takeWhile (fun x => !x.isWhitespace)) ::
      wsTokensAux fuel (cs.dropWhile (fun x => !x.isWhitespace))

/-- The non-empty whitespace-separated tokens of a character list:
`q.split(/\s+/)` with the `if (!term) continue;` skip of the source. -/
def wsTokens (l : List Char) : List (List Char) := wsTokensAux l.length l

/-- `parts.join(' ')`. -/
def joinSp : List (List Char) → List Char
  | [] => []
  | [x] => x
  | x :: y :: rest => x ++ ' ' :: joinSp (y :: rest)

/-- Substring containment test, `haystack.includes(needle)`. -/
def isSubL (pat : List Char) : List Char → Bool
  | [] => pat.isEmpty
  | c :: rest => pat.isPrefixOf (c :: rest) || isSubL pat rest

/-- `a.includes(b)` on strings. -/
def containsStr (hay sub : String) : Bool := isSubL sub.data hay.data

/-- A catalog entry, as consumed by `server.js`.  Only the fields the server
reads are modelled: `responsible` is reduced to its `name` (the only field
accessed, via `(project.responsible||{}).name`) and `documents` to the list
of `title`s (the only field accessed).  `none` models an absent field; an
empty string is a present-but-empty field (the two are distinguishable to
`typeof`-free truthiness code only through `Option`). -/
structure ProjectRecord where
  name : String
  description : String
  status : String
  progress : Option Int
  responsible : Option String
  lastUpdate : Option String
  tags : List String
  documents : List String
  deriving DecidableEq, Repr

/-- The field array of `scoreProject`:
`[name, description, status, responsible.name, ...tags, ...documents.titles]`,
with absent optional fields become `[]` (undefined and `''` are
indistinguishable to the subsequent `filter(Boolean)`). -/
def fieldsOf (p : ProjectRecord) : List (List Char) :=
  [p.name.data, p.description.data, p.status.data,
    (p.responsible.getD "").data]
  ++ p.tags.map (fun t => t.data)
  ++ p.documents.map (fun d => d.data)

/-- `fields.filter(Boolean).join(' ').toLowerCase()`. -/
def searchTextL (p : ProjectRecord) : List Char :=
  lowerL (joinSp ((fieldsOf p).filter (fun f => !f.isEmpty)))

/-- The lowercased query tokens of `scoreProject`. -/
def queryTerms (query : String) : List (List Char) :=
  wsTokens (lowerL query.data)

/-- `scoreProject(query, project)`: sum over the non-empty query terms of
the non-overlapping occurrence counts in the searchable text, plus a bonus
of 3 when the (truthy) project name occurs in the lowercased query. -/
def scoreProject (query : String) (p : ProjectRecord) : Nat :=
  ((queryTerms query).map (fun term => countOccur term (searchTextL p))).sum
  + (if (!p.name.isEmpty) && isSubL (lowerL p.name.data) (lowerL query.data)
      then 3 else 0)

/-- Stable descending insertion into a list sorted by descending score.
The new element is placed before the first element whose score does not
exceed it, which is exactly where JavaScript's stable sort with comparator
`(a, b) => b.s - a.s` leaves an element that originally preceded the rest. -/
def insertDesc {α : Type} (x : α × Nat) : List (α × Nat) → List (α × Nat)
  | [] => [x]
  | y :: ys => if y.2 ≤ x.2 then x :: y :: ys else y :: insertDesc x ys

/-- Stable sort by descending score, modelling
`.sort((a, b) => b.s - a.s)` (stable per the ECMAScript specification). -/
def sortDesc {α : Type} : List (α × Nat) → List (α × Nat)
  | [] => []
  | x :: l => insertDesc x (sortDesc l)

/-- `l.slice(0, k)` for an integer `k`: a non-negative end index takes a
prefix, a negative end index counts from the end of the array. -/
def jsSlice {α : Type} (l : List α) (k : Int) : List α :=
  if 0 ≤ k then l.take k.toNat else l.take ((l.length : Int) + k).toNat

/-- `getTopContext(query, k)` generalised over the module-level `projects`
array: score, stable-sort descending, slice the first `k`, project back. -/
def getTopContext (query : String) (projects : List ProjectRecord)
    (k : Int) : List ProjectRecord :=
  (jsSlice (sortDesc (projects.map (fun p => (p, scoreProject query p)))) k).map
    Prod.fst

/-- The `message` field of the request body: absent (or otherwise falsy and
non-string), present but not a string, or a string. -/
inductive ReqMessage where
  | missing
  | nonString
  | str (s : String)
  deriving DecidableEq

/-- Outcome of `openai.chat.completions.create`: the awaited call either
throws, or resolves with an optional trimmed-able message content
(`completion.choices?.[0]?.message?.content` may be absent). -/
inductive ProviderCall where
  | failure
  | success (content : Option String)
  deriving DecidableEq

/-- The `kpis` object of a chat response:
`{ status, progress, docs: (top.documents||[]).length, lastUpdate }`. -/
structure Kpis where
  status : String
  progress : Option Int
  docs : Nat
  lastUpdate : Option String
  deriving DecidableEq, Repr

/-- The observable HTTP outcomes of `POST /api/chat`. -/
inductive ChatResponse where
  | badRequest (error : String)
  | ok (reply : String) (kpis : Option Kpis) (usedModel : String)
  | serverError (error : String)
  deriving DecidableEq

/-- `v || fb` for a possibly-absent string `v`: the fallback is used when
the value is absent or empty (falsy). -/
def jsOrStr (v : Option String) (fb : String) : String :=
  match v with
  | none => fb
  | some s => if s.isEmpty then fb else s

/-- `p.progress || 'N/D'` rendered into the snippet: a number is printed
unless it is absent or `0` (falsy). -/
def jsNumOr (v : Option Int) (fb : String) : String :=
  match v with
  | none => fb
  | some n => if n = 0 then fb else toString n

/-- The deterministic local-fallback reply of the no-key branch, stray
quote-plus artifacts included. -/
def localReply (top : ProjectRecord) : String :=
  "Según el contexto, el proyecto \"+" ++ top.name ++ "+\" está \""
    ++ top.status ++ "\". Responsable: " ++ jsOrStr top.responsible "N/D"
    ++ ". Última actualización: " ++ jsOrStr top.lastUpdate "N/D" ++ "."

/-- The locally derived KPI struct of the top match. -/
def kpisOf (top : ProjectRecord) : Kpis :=
  ⟨top.status, top.progress, top.documents.length, top.lastUpdate⟩

/-- One numbered context block of `projectSnippets` (0-based map index). -/
def snippet (i : Nat) (p : ProjectRecord) : String :=
  "#" ++ toString (i + 1) ++ " " ++ p.name
    ++ "\nEstado: " ++ p.status
    ++ "\nAvance: " ++ jsNumOr p.progress "N/D"
    ++ "%\nResponsable: " ++ jsOrStr p.responsible "N/D"
    ++ "\nÚltima actualización: " ++ jsOrStr p.lastUpdate "N/D"
    ++ "\nDocumentos: "
    ++ (let j := String.intercalate ", " p.documents
        if j.isEmpty then "—" else j)
    ++ "\nDescripción: " ++ p.description

/-- `projectSnippets`: the context blocks of the ranked matches joined by
blank lines. -/
def projectSnippets (ps : List ProjectRecord) : String :=
  String.intercalate "\n\n" (ps.enum.map (fun ip => snippet ip.1 ip.2))

/-- The fallback text used when the provider returns an empty or absent
message content. -/
def noAnswer : String := "No pude generar una respuesta."

/-- The `POST /api/chat` handler: input validation, ranking with `k = 4`,
then either the local-fallback branch (no API key) or the provider branch,
whose thrown errors are caught into a 500 response. -/
def chatHandler (apiKey : String) (projects : List ProjectRecord)
    (msg : ReqMessage) (provider : ProviderCall) : ChatResponse :=
  match msg with
  | .missing => .badRequest "Mensaje inválido"
  | .nonString => .badRequest "Mensaje inválido"
  | .str message =>
    if message = "" then .badRequest "Mensaje inválido"
    else
      let contextProjects := getTopContext message projects 4
      if apiKey = "" then
        match contextProjects with
        | [] => .ok "No hay datos locales para responder." none "local-fallback"
        | top :: _ => .ok (localReply top) (some (kpisOf top)) "local-fallback"
      else
        match provider with
        | .failure => .serverError "Fallo interno de chat"
        | .success content =>
          let text :=
            match content with
            | none => noAnswer
            | some s => if s.trim.isEmpty then noAnswer else s.trim
          .ok text
            (match contextProjects with
             | [] => none
             | top :: _ => some (kpisOf top)) "gpt-4o-mini"

/-! ### Counting infrastructure -/

theorem countOccurAux_eq_of_le (pat : List Char) :
    ∀ (f₁ f₂ : Nat) (s : List Char), s.length ≤ f₁ → s.length ≤ f₂ →
      countOccurAux pat f₁ s = countOccurAux pat f₂ s := by
  intro f₁
  induction f₁ with
  | zero =>
    intro f₂ s h₁ _
    have hs : s = [] := List.eq_nil_of_length_eq_zero (Nat.le_zero.mp h₁)
    subst hs
    cases f₂ <;> rfl
  | succ f ih =>
    intro f₂ s h₁ h₂
    cases s with
    | nil => cases f₂ <;> rfl
    | cons c rest =>
      cases f₂ with
      | zero => simp at h₂
      | succ g =>
        simp only [countOccurAux]
        have hr : rest.length ≤ f := by simpa using h₁
        have hr' : rest.length ≤ g := by simpa using h₂
        by_cases hp : pat.isPrefixOf (c :: rest)
        · rw [if_pos hp, if_pos hp]
          have hd : (rest.drop (pat.length - 1)).length ≤ f := by
            simp only [List.length_drop]; omega
          have hd' : (rest.drop (pat.length - 1)).length ≤ g := by
            simp only [List.length_drop]; omega
          rw [ih _ _ hd hd']
        · rw [if_neg hp, if_neg hp]
          exact ih _ _ hr hr'

theorem countOccur_nil (pat : List Char) : countOccur pat [] = 0 := rfl

theorem countOccur_cons (pat : List Char) (c : Char) (s : List Char) :
    countOccur pat (c :: s) =
      if pat.isPrefixOf (c :: s) then
        1 + countOccur pat (s.drop (pat.length - 1))
      else countOccur pat s := by
  show countOccurAux pat (s.length + 1) (c :: s) = _
  simp only [countOccurAux]
  by_cases hp : pat.isPrefixOf (c :: s)
  · rw [if_pos hp, if_pos hp]
    congr 1
    exact countOccurAux_eq_of_le pat s.length (s.drop (pat.length - 1)).length _
      (by simp only [List.length_drop]; omega) (Nat.le_refl _)
  · rw [if_neg hp, if_neg hp]
    rfl

theorem not_isPrefixOf_space {pat : List Char} (hne : pat ≠ [])
    (hsp : ' ' ∉ pat) (b : List Char) : ¬ pat.isPrefixOf (' ' :: b) := by
  intro h
  rw [ List.isPrefixOf_iff_prefix] at h
  cases pat with
  | nil => exact hne rfl
  | cons p pr =>
    rw [List.cons_prefix_cons] at h
    exact hsp (h.1 ▸ List.mem_cons_self _ _)

theorem isPrefixOf_append_sep {pat : List Char} (hsp : ' ' ∉ pat)
    (u b : List Char) :
    pat.isPrefixOf (u ++ ' ' :: b) = pat.isPrefixOf u := by
  rw [Bool.eq_iff_iff, List.isPrefixOf_iff_prefix,
    List.isPrefixOf_iff_prefix]
  constructor
  · rintro ⟨r, hr⟩
    rcases List.append_eq_append_iff.mp hr with ⟨a', ha, _⟩ | ⟨c', hc, hcr⟩
    · exact ⟨a', ha.symm⟩
    · cases c' with
      | nil => exact ⟨[], by simp [hc]⟩
      | cons d cs =>
        have hd : d = ' ' := by
          have := congrArg (fun l => l.head?) hcr
          simpa using this.symm
        exact absurd (hc ▸ List.mem_append_right u (hd ▸
          List.mem_cons_self d cs)) hsp
  · rintro ⟨r, hr⟩
    exact ⟨r ++ ' ' :: b, by rw [← hr]; simp⟩
theorem drop_append_le {α : Type} :
    ∀ (u v : List α) (n : Nat), n ≤ u.length →
      (u ++ v).drop n = u.drop n ++ v := by
  intro u
  induction u with
  | nil => intro v n hn; simp at hn; simp [hn]
  | cons c u' ih =>
    intro v n hn
    cases n with
    | zero => simp
    | succ m => simpa using ih v m (by simpa using hn)

/-- A non-empty space-free pattern cannot match across a space, so
occurrence counting splits at every separator. -/
theorem countOccur_sep {pat : List Char} (hne : pat ≠ []) (hsp : ' ' ∉ pat)
    (a b : List Char) :
    countOccur pat (a ++ ' ' :: b) = countOccur pat a + countOccur pat b := by
  have main : ∀ (n : Nat) (a b : List Char), a.length ≤ n →
      countOccur pat (a ++ ' ' :: b) = countOccur pat a + countOccur pat b := by
    intro n
    induction n with
    | zero =>
      intro a b ha
      have haz : a = [] := List.eq_nil_of_length_eq_zero (Nat.le_zero.mp ha)
      subst haz
      rw [List.nil_append, countOccur_cons, countOccur_nil,
        if_neg (not_isPrefixOf_space hne hsp b)]
      omega
    | succ n ih =>
      intro a b ha
      cases a with
      | nil =>
        rw [List.nil_append, countOccur_cons, countOccur_nil,
          if_neg (not_isPrefixOf_space hne hsp b)]
        omega
      | cons c a' =>
        have hsplit : (c :: a') ++ ' ' :: b = c :: (a' ++ ' ' :: b) := rfl
        rw [hsplit, countOccur_cons, countOccur_cons]
        have hcond : pat.isPrefixOf (c :: (a' ++ ' ' :: b))
            = pat.isPrefixOf (c :: a') := isPrefixOf_append_sep hsp (c :: a') b
        rw [hcond]
        by_cases hp : pat.isPrefixOf (c :: a')
        · rw [if_pos hp, if_pos hp]
          have hL : pat.length ≤ a'.length + 1 := by
            have := (List.isPrefixOf_iff_prefix.mp hp).length_le
            simpa using this
          have hdrop : (a' ++ ' ' :: b).drop (pat.length - 1)
              = a'.drop (pat.length - 1) ++ ' ' :: b :=
            drop_append_le a' (' ' :: b) (pat.length - 1) (by omega)
          rw [hdrop, ih (a'.drop (pat.length - 1)) b
            (by simp only [List.length_drop]
                simp only [List.length_cons] at ha
                omega)]
          omega
        · rw [if_neg hp, if_neg hp, ih a' b (by simpa using ha)]
  exact main a.length a b (Nat.le_refl _)

/-- Counting a non-empty space-free pattern in a space-joined list of parts
is the sum of the counts in the parts. -/
theorem countOccur_joinSp {pat : List Char} (hne : pat ≠ [])
    (hsp : ' ' ∉ pat) :
    ∀ Z : List (List Char),
      countOccur pat (joinSp Z) = (Z.map (countOccur pat)).sum := by
  intro Z
  induction Z with
  | nil => simp [joinSp, countOccur_nil]
  | cons x Z ih =>
    cases Z with
    | nil => simp [joinSp]
    | cons y rest =>
      rw [joinSp, countOccur_sep hne hsp, ih]
      simp

theorem lowerL_append (a b : List Char) :
    lowerL (a ++ b) = lowerL a ++ lowerL b := List.map_append lowerChar a b

theorem lowerChar_space : lowerChar ' ' = ' ' := by decide

theorem lowerL_joinSp :
    ∀ Z : List (List Char), lowerL (joinSp Z) = joinSp (Z.map lowerL) := by
  intro Z
  induction Z with
  | nil => rfl
  | cons x Z ih =>
    cases Z with
    | nil => rfl
    | cons y rest =>
      show lowerL (x ++ ' ' :: joinSp (y :: rest)) = _
      rw [lowerL_append]
      show lowerL x ++ lowerChar ' ' :: lowerL (joinSp (y :: rest)) = _
      rw [lowerChar_space, ih]
      rfl

theorem sum_map_filter_nonempty (f : List Char → Nat) (hf : f [] = 0) :
    ∀ Z : List (List Char),
      ((Z.filter (fun z => !z.isEmpty)).map f).sum = (Z.map f).sum := by
  intro Z
  induction Z with
  | nil => rfl
  | cons x Z ih =>
    cases x with
    | nil => simpa [List.filter, hf] using ih
    | cons c cs => simpa [List.filter] using congrArg (f (c :: cs) + ·) ih

theorem sum_map_le {α : Type} (l : List α) (f g : α → Nat)
    (h : ∀ a ∈ l, f a ≤ g a) : (l.map f).sum ≤ (l.map g).sum := by
  induction l with
  | nil => simp
  | cons a l ih =>
    simp only [List.map_cons, List.sum_cons]
    have h1 := h a (List.mem_cons_self a l)
    have h2 := ih (fun x hx => h x (List.mem_cons_of_mem a hx))
    omega

/-! ### Query token facts and the searchable-text decomposition -/

theorem wsTokensAux_mem :
    ∀ (n : Nat) (l t : List Char), l.length ≤ n → t ∈ wsTokensAux n l →
      t ≠ [] ∧ ∀ c ∈ t, c.isWhitespace = false := by
  intro n
  induction n with
  | zero => intro l t _ ht; simp [wsTokensAux] at ht
  | succ n ih =>
    intro l t hl ht
    cases l with
    | nil => simp [wsTokensAux] at ht
    | cons c cs =>
      simp only [wsTokensAux] at ht
      by_cases hc : c.isWhitespace
      · rw [if_pos hc] at ht
        exact ih cs t (by simpa using hl) ht
      · rw [if_neg hc] at ht
        rcases List.mem_cons.mp ht with hhead | htail
        · subst hhead
          refine ⟨by simp, ?_⟩
          intro x hx
          rcases List.mem_cons.mp hx with hx | hx
          · subst hx; simpa using hc
          · simpa using List.mem_takeWhile_imp hx
        · refine ih (cs.dropWhile (fun x => !x.isWhitespace)) t ?_ htail
          calc (cs.dropWhile (fun x => !x.isWhitespace)).length
              ≤ cs.length := by
                have := List.IsSuffix.length_le (List.dropWhile_suffix
                  (fun x => !x.isWhitespace) (l := cs))
                exact this
            _ ≤ n := by simpa using hl

theorem queryTerms_facts (q : String) (t : List Char)
    (ht : t ∈ queryTerms q) : t ≠ [] ∧ ' ' ∉ t := by
  have h := wsTokensAux_mem (lowerL q.data).length (lowerL q.data) t
    (Nat.le_refl _) ht
  refine ⟨h.1, fun hsp => ?_⟩
  have := h.2 ' ' hsp
  simp [Char.isWhitespace] at this

/-- The searchable text the way the claim words it: all the fields
space-joined (no truthiness filtering of empty fields), lowercased. -/
def claimTextL (p : ProjectRecord) : List Char :=
  lowerL (joinSp (fieldsOf p))

theorem countOccur_searchText {pat : List Char} (hne : pat ≠ [])
    (hsp : ' ' ∉ pat) (p : ProjectRecord) :
    countOccur pat (searchTextL p)
      = ((fieldsOf p).map (fun f => countOccur pat (lowerL f))).sum := by
  rw [searchTextL, lowerL_joinSp, countOccur_joinSp hne hsp, List.map_map]
  exact sum_map_filter_nonempty (fun f => countOccur pat (lowerL f))
    (countOccur_nil pat) (fieldsOf p)

theorem countOccur_claimText {pat : List Char} (hne : pat ≠ [])
    (hsp : ' ' ∉ pat) (p : ProjectRecord) :
    countOccur pat (claimTextL p)
      = ((fieldsOf p).map (fun f => countOccur pat (lowerL f))).sum := by
  rw [claimTextL, lowerL_joinSp, countOccur_joinSp hne hsp, List.map_map]
  rfl

/-! ### Stable-sort and slice facts -/

theorem mem_insertDesc {α : Type} (x a : α × Nat) :
    ∀ m : List (α × Nat), a ∈ insertDesc x m ↔ a = x ∨ a ∈ m := by
  intro m
  induction m with
  | nil => simp [insertDesc]
  | cons y ys ih =>
    simp only [insertDesc]
    by_cases h : y.2 ≤ x.2
    · rw [if_pos h]; simp [List.mem_cons]
    · rw [if_neg h]
      simp only [List.mem_cons, ih]
      tauto

theorem insertDesc_perm {α : Type} (x : α × Nat) :
    ∀ m : List (α × Nat), (insertDesc x m).Perm (x :: m) := by
  intro m
  induction m with
  | nil => simp [insertDesc]
  | cons y ys ih =>
    simp only [insertDesc]
    by_cases h : y.2 ≤ x.2
    · rw [if_pos h]
    · rw [if_neg h]
      exact (List.Perm.cons y ih).trans (List.Perm.swap x y ys)

theorem sortDesc_perm {α : Type} :
    ∀ l : List (α × Nat), (sortDesc l).Perm l := by
  intro l
  induction l with
  | nil => simp [sortDesc]
  | cons x l ih =>
    exact (insertDesc_perm x (sortDesc l)).trans (List.Perm.cons x ih)

theorem pairwise_insertDesc {α : Type} (x : α × Nat) (m : List (α × Nat))
    (hm : m.Pairwise (fun a b => b.2 ≤ a.2)) :
    (insertDesc x m).Pairwise (fun a b => b.2 ≤ a.2) := by
  induction m with
  | nil => simp [insertDesc]
  | cons y ys ih =>
    simp only [insertDesc]
    rcases List.pairwise_cons.mp hm with ⟨hy, hys⟩
    by_cases h : y.2 ≤ x.2
    · rw [if_pos h]
      refine List.pairwise_cons.mpr ⟨?_, hm⟩
      intro z hz
      rcases List.mem_cons.mp hz with hz | hz
      · subst hz; exact h
      · exact Nat.le_trans (hy z hz) h
    · rw [if_neg h]
      refine List.pairwise_cons.mpr ⟨?_, ih hys⟩
      intro z hz
      rcases (mem_insertDesc x z ys).mp hz with hz | hz
      · subst hz; omega
      · exact hy z hz

theorem pairwise_sortDesc {α : Type} :
    ∀ l : List (α × Nat), (sortDesc l).Pairwise (fun a b => b.2 ≤ a.2) := by
  intro l
  induction l with
  | nil => simp [sortDesc]
  | cons x l ih => exact pairwise_insertDesc x (sortDesc l) ih

/-- Inserting into a sorted-descending list commutes with filtering on the
score: the inserted element lands before every element of equal score, so
equal-score elements keep their relative order. -/
theorem insertDesc_filter {α : Type} (x : α × Nat) (v : Nat) :
    ∀ m : List (α × Nat), m.Pairwise (fun a b => b.2 ≤ a.2) →
      (insertDesc x m).filter (fun y => y.2 == v)
        = (x :: m).filter (fun y => y.2 == v) := by
  intro m
  induction m with
  | nil => intro _; rfl
  | cons y ys ih =>
    intro hm
    rcases List.pairwise_cons.mp hm with ⟨hy, hys⟩
    simp only [insertDesc]
    by_cases h : y.2 ≤ x.2
    · rw [if_pos h]
    · rw [if_neg h]
      have hins : (insertDesc x ys).filter (fun z => z.2 == v)
          = (x :: ys).filter (fun z => z.2 == v) := ih hys
      by_cases hxv : x.2 = v
      · have hyv : (y.2 == v) = false := beq_eq_false_iff_ne.mpr (by omega)
        have hxb : (x.2 == v) = true := beq_iff_eq.mpr hxv
        simp [List.filter_cons, hins, hxb, hyv]
      · have hxb : (x.2 == v) = false := beq_eq_false_iff_ne.mpr hxv
        simp [List.filter_cons, hins, hxb]

theorem sortDesc_filter {α : Type} (v : Nat) :
    ∀ l : List (α × Nat),
      (sortDesc l).filter (fun z => z.2 == v) = l.filter (fun z => z.2 == v) := by
  intro l
  induction l with
  | nil => rfl
  | cons x l ih =>
    show (insertDesc x (sortDesc l)).filter _ = _
    rw [insertDesc_filter x v (sortDesc l) (pairwise_sortDesc l),
      List.filter_cons, List.filter_cons, ih]

theorem filter_map_comm {α β : Type} (f : α → β) (p : β → Bool) :
    ∀ l : List α, (l.map f).filter p = (l.filter (fun a => p (f a))).map f := by
  intro l
  induction l with
  | nil => rfl
  | cons a l ih =>
    simp only [List.map_cons, List.filter_cons]
    by_cases h : p (f a) = true
    · rw [h]
      simp [ih]
    · rw [Bool.not_eq_true] at h
      rw [h]
      simp [ih]

theorem jsSlice_sublist {α : Type} (l : List α) (k : Int) :
    (jsSlice l k).Sublist l := by
  unfold jsSlice
  by_cases h : 0 ≤ k
  · rw [if_pos h]; exact List.take_sublist _ _
  · rw [if_neg h]; exact List.take_sublist _ _

theorem jsSlice_nil {α : Type} (k : Int) : jsSlice ([] : List α) k = [] := by
  unfold jsSlice
  by_cases h : 0 ≤ k
  · rw [if_pos h]; exact List.take_nil
  · rw [if_neg h]; exact List.take_nil

/-- All scored pairs produced from the catalog have their recomputed score
as second component, and this survives sorting. -/
theorem sortDesc_map_snd (q : String) (catalog : List ProjectRecord) :
    ∀ x ∈ sortDesc (catalog.map (fun p => (p, scoreProject q p))),
      x.2 = scoreProject q x.1 := by
  intro x hx
  have hx' : x ∈ catalog.map (fun p => (p, scoreProject q p)) :=
    (sortDesc_perm _).mem_iff.mp hx
  rcases List.mem_map.mp hx' with ⟨p, _, hp⟩
  rw [← hp]

/-- `getTopContext` never makes records up: it returns a sub-permutation of
the catalog. -/
theorem getTopContext_subperm_catalog (q : String)
    (catalog : List ProjectRecord) (k : Int) :
    (getTopContext q catalog k).Subperm catalog := by
  unfold getTopContext
  have h1 : ((jsSlice (sortDesc (catalog.map (fun p => (p, scoreProject q p)))) k).map
      Prod.fst).Sublist
      ((sortDesc (catalog.map (fun p => (p, scoreProject q p)))).map Prod.fst) :=
    (jsSlice_sublist _ _).map Prod.fst
  have h2 : ((sortDesc (catalog.map (fun p => (p, scoreProject q p)))).map
      Prod.fst).Perm
      ((catalog.map (fun p => (p, scoreProject q p))).map Prod.fst) :=
    (sortDesc_perm _).map Prod.fst
  have h3 : (catalog.map (fun p => (p, scoreProject q p))).map Prod.fst
      = catalog := by
    rw [List.map_map]
    exact List.map_id catalog
  rw [h3] at h2
  exact (h1.subperm).trans h2.subperm

/-! ### Claim-side definitions and concrete records -/

/-- The score exactly as claim C1 words it: occurrence counts over the
space-joined searchable text, plus a bonus of 3 whenever the record's
lowercase name appears as a substring of the lowercase query, with no
non-emptiness condition on the name. -/
def claimScore (query : String) (p : ProjectRecord) : Nat :=
  ((queryTerms query).map (fun term => countOccur term (claimTextL p))).sum
  + (if isSubL (lowerL p.name.data) (lowerL query.data) then 3 else 0)

/-- The amended C1 score: the bonus additionally requires the name to be
non-empty (truthy), as the source's `if (project.name && ...)` does. -/
def claimScoreAmended (query : String) (p : ProjectRecord) : Nat :=
  ((queryTerms query).map (fun term => countOccur term (claimTextL p))).sum
  + (if (!p.name.isEmpty) && isSubL (lowerL p.name.data) (lowerL query.data)
      then 3 else 0)

def recA : ProjectRecord := ⟨"a", "", "", none, none, none, [], []⟩

def recB : ProjectRecord := ⟨"b", "", "", none, none, none, [], []⟩

def emptyNameRec : ProjectRecord := ⟨"", "", "", none, none, none, [], []⟩

def alphaRecord : ProjectRecord :=
  ⟨"Alpha", "", "active", none, some "Ana", some "2024-01-01", [], []⟩

def truthyRec : ProjectRecord := ⟨"P", "d", "ok", some 0, some "", some "", [], []⟩

theorem isSubL_iff (pat : List Char) :
    ∀ l : List Char, isSubL pat l = true ↔ pat <:+: l := by
  intro l
  induction l with
  | nil => simp [isSubL, List.isEmpty_iff]
  | cons c rest ih =>
    simp only [isSubL, Bool.or_eq_true, ih, List.infix_cons_iff,
      List.isPrefixOf_iff_prefix]

/-! ### Claim C1 -/

/-- C1, counterexample: for a record whose `name` is the empty string, the
empty string is a substring of every lowercase query, so the claimed score
formula awards the bonus of 3, but `scoreProject` does not: the source gates
the bonus on the truthiness of `project.name`, and an empty name is falsy.
At query "x" and the all-empty record the code scores 0, the claim 3. -/
theorem scoreProject_claim_cex :
    scoreProject "x" emptyNameRec ≠ claimScore "x" emptyNameRec := by decide

/-- C1 (amended): for every query and record, `scoreProject` equals the sum
over each non-empty whitespace-separated term of the lowercased query of the
number of non-overlapping left-to-right occurrences of that term in the
record's lowercase searchable text (name, description, status, responsible
name, tags, document titles, space-joined), plus a bonus of 3 exactly when
the record's name is non-empty and its lowercase form appears as a substring
of the lowercase query. -/
theorem scoreProject_eq_claimAmended (q : String) (p : ProjectRecord) :
    scoreProject q p = claimScoreAmended q p := by
  unfold scoreProject claimScoreAmended
  congr 1
  refine congrArg List.sum (List.map_congr_left ?_)
  intro t ht
  rcases queryTerms_facts q t ht with ⟨hne, hsp⟩
  rw [countOccur_searchText hne hsp, countOccur_claimText hne hsp]

/-! ### Claim C2 -/

/-- C2: the ranking is stable on ties. For every score value `v`, the
records of score `v` in the returned top-k sequence form a sublist of the
records of score `v` in the input catalog: equal-score records appear in
their original relative catalog order. -/
theorem getTopContext_stable (q : String) (catalog : List ProjectRecord)
    (k : Int) (v : Nat) :
    ((getTopContext q catalog k).filter
        (fun p => scoreProject q p == v)).Sublist
      (catalog.filter (fun p => scoreProject q p == v)) := by
  unfold getTopContext
  rw [filter_map_comm]
  have hsl : ((jsSlice (sortDesc (catalog.map (fun p => (p, scoreProject q p)))) k).filter
        (fun x => scoreProject q x.1 == v)).Sublist
      ((sortDesc (catalog.map (fun p => (p, scoreProject q p)))).filter
        (fun x => scoreProject q x.1 == v)) :=
    (jsSlice_sublist _ _).filter _
  have he1 : (sortDesc (catalog.map (fun p => (p, scoreProject q p)))).filter
        (fun x => scoreProject q x.1 == v)
      = (sortDesc (catalog.map (fun p => (p, scoreProject q p)))).filter
        (fun x => x.2 == v) := by
    refine List.filter_congr ?_
    intro x hx
    rw [sortDesc_map_snd q catalog x hx]
  have he2 : (sortDesc (catalog.map (fun p => (p, scoreProject q p)))).filter
        (fun x => x.2 == v)
      = (catalog.map (fun p => (p, scoreProject q p))).filter
        (fun x => x.2 == v) := sortDesc_filter v _
  have he3 : (catalog.map (fun p => (p, scoreProject q p))).filter
        (fun x => x.2 == v)
      = (catalog.map (fun p => (p, scoreProject q p))).filter
        (fun x => scoreProject q x.1 == v) := by
    refine List.filter_congr ?_
    intro x hx
    rcases List.mem_map.mp hx with ⟨p, _, hp⟩
    rw [← hp]
  have he4 : (catalog.map (fun p => (p, scoreProject q p))).filter
        (fun x => scoreProject q x.1 == v)
      = (catalog.filter (fun p => scoreProject q p == v)).map
        (fun p => (p, scoreProject q p)) :=
    filter_map_comm (fun p => (p, scoreProject q p))
      (fun x => scoreProject q x.1 == v) catalog
  rw [he1, he2, he3, he4] at hsl
  have hmapped := hsl.map Prod.fst
  rw [List.map_map] at hmapped
  have hcomp : (Prod.fst ∘ fun p : ProjectRecord => (p, scoreProject q p))
      = id := rfl
  rw [hcomp, List.map_id] at hmapped
  exact hmapped

/-! ### Claims C3 and C4 -/

/-- C3, counterexample: for a negative `k` the claim "any k ≤ 0 returns an
empty sequence" fails, because `slice(0, k)` interprets a negative end index
from the end of the array: with a two-record catalog and `k = -1` the
ranking returns one record, not none. -/
theorem getTopContext_negk_cex : getTopContext "x" [recA, recB] (-1) ≠ [] := by
  decide

/-- C3 (amended): ranking with `k = 0` returns the empty sequence, and
ranking over an empty catalog returns the empty sequence for every `k`. -/
theorem getTopContext_zero_and_empty (q : String)
    (catalog : List ProjectRecord) (k : Int) :
    getTopContext q catalog 0 = [] ∧ getTopContext q [] k = [] := by
  constructor
  · unfold getTopContext jsSlice
    simp
  · unfold getTopContext
    rw [show sortDesc (([] : List ProjectRecord).map
      (fun p => (p, scoreProject q p))) = [] from rfl, jsSlice_nil]
    rfl

/-- C4, counterexample: with a negative `k` the slice can keep records, so
the returned sequence need not have length at most `k`: two records and
`k = -1` produce a sequence of length 1, and `1 ≤ -1` is false. -/
theorem getTopContext_length_negk_cex :
    ¬ (((getTopContext "x" [recA, recB] (-1)).length : Int) ≤ -1) := by decide

/-- C4 (amended): the ranking always returns a sub-permutation of the input
catalog (no fabricated or duplicated entries), and for every `k ≥ 0` it
returns at most `k` records. -/
theorem getTopContext_subperm_len (q : String) (catalog : List ProjectRecord)
    (k : Int) :
    (getTopContext q catalog k).Subperm catalog
    ∧ (0 ≤ k → ((getTopContext q catalog k).length : Int) ≤ k) := by
  refine ⟨getTopContext_subperm_catalog q catalog k, fun hk => ?_⟩
  unfold getTopContext jsSlice
  rw [if_pos hk]
  simp only [List.length_map, List.length_take]
  omega

/-- C4, witness: at the two-record catalog and `k = 2` the ranking is a
sub-permutation of the catalog of length at most 2. -/
theorem getTopContext_subperm_len_witness :
    (getTopContext "x" [recA, recB] 2).Subperm [recA, recB]
    ∧ ((getTopContext "x" [recA, recB] 2).length : Int) ≤ 2 :=
  ⟨(getTopContext_subperm_len "x" [recA, recB] 2).1,
    (getTopContext_subperm_len "x" [recA, recB] 2).2 (by decide)⟩

/-! ### Claim C5 -/

/-- C5: appending an occurrence of any query term to a record's description
(hence to its searchable text) never decreases the record's score. -/
theorem scoreProject_monotone (q : String) (p : ProjectRecord)
    (t : List Char) (ht : t ∈ queryTerms q) :
    scoreProject q p ≤ scoreProject q
      { p with description := p.description ++ String.mk (' ' :: t) } := by
  unfold scoreProject
  refine Nat.add_le_add ?_ (Nat.le_refl _)
  refine sum_map_le _ _ _ ?_
  intro term htm
  rcases queryTerms_facts q term htm with ⟨hne, hsp⟩
  rw [countOccur_searchText hne hsp, countOccur_searchText hne hsp]
  have hfields :
      fieldsOf { p with description := p.description ++ String.mk (' ' :: t) }
        = [p.name.data, p.description.data ++ ' ' :: t, p.status.data,
            (p.responsible.getD "").data]
          ++ p.tags.map (fun s => s.data)
          ++ p.documents.map (fun d => d.data) := by
    simp [fieldsOf]
  rw [hfields]
  simp only [fieldsOf, List.map_append, List.sum_append, List.map_cons,
    List.sum_cons]
  have hdesc : countOccur term (lowerL (p.description.data ++ ' ' :: t))
      = countOccur term (lowerL p.description.data)
        + countOccur term (lowerL t) := by
    have : lowerL (p.description.data ++ ' ' :: t)
        = lowerL p.description.data ++ ' ' :: lowerL t := by
      rw [lowerL_append]
      show _ ++ lowerChar ' ' :: lowerL t = _
      rw [lowerChar_space]
    rw [this, countOccur_sep hne hsp]
  rw [hdesc]
  omega

/-- C5, witness: at query "alpha", its sole term "alpha" and the record
`recA`, the score does not decrease. -/
theorem scoreProject_monotone_witness :
    scoreProject "alpha" recA ≤ scoreProject "alpha"
      { recA with description := recA.description ++ String.mk (' ' :: "alpha".data) } :=
  scoreProject_monotone "alpha" recA "alpha".data (by decide)

/-! ### Claims C6 to C9 -/

theorem chatHandler_noKey (projects : List ProjectRecord) (m : String)
    (prov : ProviderCall) (hm : m ≠ "") :
    chatHandler "" projects (.str m) prov =
      match getTopContext m projects 4 with
      | [] => .ok "No hay datos locales para responder." none "local-fallback"
      | top :: _ => .ok (localReply top) (some (kpisOf top)) "local-fallback" := by
  show (if m = "" then ChatResponse.badRequest "Mensaje inválido" else _) = _
  rw [if_neg hm, if_pos rfl]

/-- C6: with no provider credential, every valid query gets a 200 response
with `usedModel = "local-fallback"`; when the ranked context is non-empty
the reply interpolates the top match's name, status, responsible name and
last update (with "N/D" fallbacks) and the KPI struct carries the top
match's status, raw progress, document count and last update; on an empty
catalog the reply is the fixed no-local-data message with null KPIs; and on
the one-record Alpha catalog with query "Alpha" the KPI status is "active"
and the reply mentions "Alpha" and "active". -/
theorem chatHandler_local_fallback (projects : List ProjectRecord)
    (m : String) (prov : ProviderCall) (hm : m ≠ "") :
    (∃ r kp, chatHandler "" projects (.str m) prov
        = .ok r kp "local-fallback")
    ∧ (∀ top rest, getTopContext m projects 4 = top :: rest →
        chatHandler "" projects (.str m) prov
          = .ok ("Según el contexto, el proyecto \"+" ++ top.name
              ++ "+\" está \"" ++ top.status ++ "\". Responsable: "
              ++ jsOrStr top.responsible "N/D" ++ ". Última actualización: "
              ++ jsOrStr top.lastUpdate "N/D" ++ ".")
            (some ⟨top.status, top.progress, top.documents.length,
              top.lastUpdate⟩) "local-fallback")
    ∧ (projects = [] →
        chatHandler "" projects (.str m) prov
          = .ok "No hay datos locales para responder." none "local-fallback")
    ∧ (∃ r, chatHandler "" [alphaRecord] (.str "Alpha") prov
          = .ok r (some ⟨"active", none, 0, some "2024-01-01"⟩)
            "local-fallback"
        ∧ containsStr r "Alpha" = true ∧ containsStr r "active" = true) := by
  refine ⟨?_, ?_, ?_, ?_⟩
  · rw [chatHandler_noKey projects m prov hm]
    cases getTopContext m projects 4 with
    | nil => exact ⟨_, _, rfl⟩
    | cons top rest => exact ⟨_, _, rfl⟩
  · intro top rest htop
    rw [chatHandler_noKey projects m prov hm, htop]
    rfl
  · intro hp
    subst hp
    rw [chatHandler_noKey [] m prov hm]
    rfl
  · refine ⟨localReply alphaRecord, ?_, by decide, by decide⟩
    rw [chatHandler_noKey [alphaRecord] "Alpha" prov (by decide)]
    rfl

/-- C6, witness: the local-fallback behaviour at the concrete Alpha catalog,
query "Alpha" and a failing (never consulted) provider. -/
theorem chatHandler_local_fallback_witness :
    ∃ r, chatHandler "" [alphaRecord] (.str "Alpha") .failure
        = .ok r (some ⟨"active", none, 0, some "2024-01-01"⟩) "local-fallback"
      ∧ containsStr r "Alpha" = true ∧ containsStr r "active" = true :=
  (chatHandler_local_fallback [alphaRecord] "Alpha" .failure
    (by decide)).2.2.2

/-- C7: on the provider path (credential configured, valid message), a
provider call that fails yields exactly the 500 response with body error
"Fallo interno de chat", and never any 200 response (no reply, KPIs or
usedModel reach the caller, in particular not the local-fallback reply). -/
theorem chatHandler_provider_failure (key : String)
    (projects : List ProjectRecord) (m : String) (hk : key ≠ "")
    (hm : m ≠ "") :
    chatHandler key projects (.str m) .failure
      = .serverError "Fallo interno de chat"
    ∧ ∀ r kp u, chatHandler key projects (.str m) .failure ≠ .ok r kp u := by
  have h : chatHandler key projects (.str m) .failure
      = .serverError "Fallo interno de chat" := by
    show (if m = "" then ChatResponse.badRequest "Mensaje inválido" else _) = _
    rw [if_neg hm, if_neg hk]
  refine ⟨h, fun r kp u heq => ?_⟩
  rw [h] at heq
  exact ChatResponse.noConfusion heq

/-- C7, witness: concrete provider-path failure. -/
theorem chatHandler_provider_failure_witness :
    chatHandler "sk-key" [recA] (.str "hola") .failure
      = .serverError "Fallo interno de chat" :=
  (chatHandler_provider_failure "sk-key" [recA] "hola" (by decide)
    (by decide)).1

/-- C8: a missing or non-string `message` yields exactly the 400 response
with body error "Mensaje inválido", and the response is independent of the
catalog, the credential and the provider (no ranking or provider call can
influence it). -/
theorem chatHandler_invalid_message (key key' : String)
    (projects projects' : List ProjectRecord) (prov prov' : ProviderCall) :
    chatHandler key projects .missing prov = .badRequest "Mensaje inválido"
    ∧ chatHandler key projects .nonString prov
        = .badRequest "Mensaje inválido"
    ∧ chatHandler key projects .missing prov
        = chatHandler key' projects' .missing prov'
    ∧ chatHandler key projects .nonString prov
        = chatHandler key' projects' .nonString prov' :=
  ⟨rfl, rfl, rfl, rfl⟩

/-- C9: a present, string-typed but empty `message` is still rejected with
the 400 invalid-message response, because `!message` is true for the falsy
empty string. -/
theorem chatHandler_empty_message (key : String)
    (projects : List ProjectRecord) (prov : ProviderCall) :
    chatHandler key projects (.str "") prov
      = .badRequest "Mensaje inválido" := rfl

/-! ### Claim C10 -/

/-- C10: the display fallbacks in the provider-facing context block are
selected by truthiness, not by absence: a present `progress` equal to `0`,
a present-but-empty responsible name and a present-but-empty last update all
render as fallback text in the snippet, while the KPI struct carries the raw
field values of the same record. -/
theorem snippet_truthiness_fallback (i : Nat) (p : ProjectRecord) :
    ((kpisOf p).progress = p.progress ∧ (kpisOf p).lastUpdate = p.lastUpdate)
    ∧ (p.progress = some 0 →
        containsStr (snippet i p) "Avance: N/D%" = true)
    ∧ (p.responsible = some "" →
        containsStr (snippet i p) "Responsable: N/D" = true)
    ∧ (p.lastUpdate = some "" →
        containsStr (snippet i p) "Última actualización: N/D" = true) := by
  refine ⟨⟨rfl, rfl⟩, ?_, ?_, ?_⟩
  · intro hprog
    show isSubL "Avance: N/D%".data (snippet i p).data = true
    refine (isSubL_iff _ _).mpr ⟨("#" ++ toString (i + 1) ++ " " ++ p.name
      ++ "\nEstado: " ++ p.status ++ "\n").data,
      ("\nResponsable: " ++ jsOrStr p.responsible "N/D"
        ++ "\nÚltima actualización: " ++ jsOrStr p.lastUpdate "N/D"
        ++ "\nDocumentos: "
        ++ (let j := String.intercalate ", " p.documents
            if j.isEmpty then "—" else j)
        ++ "\nDescripción: " ++ p.description).data, ?_⟩
    have e1 : "\nAvance: ".data = '\n' :: "Avance: ".data := by decide
    have e2 : "%\nResponsable: ".data = '%' :: "\nResponsable: ".data := by
      decide
    have e3 : "Avance: N/D%".data
        = "Avance: ".data ++ "N/D".data ++ ['%'] := by decide
    have e0 : jsNumOr (some 0) "N/D" = "N/D" := by decide
    simp [snippet, hprog, e0, e1, e2, e3, List.append_assoc]
  · intro hresp
    show isSubL "Responsable: N/D".data (snippet i p).data = true
    refine (isSubL_iff _ _).mpr ⟨("#" ++ toString (i + 1) ++ " " ++ p.name
      ++ "\nEstado: " ++ p.status ++ "\nAvance: " ++ jsNumOr p.progress "N/D"
      ++ "%\n").data,
      ("\nÚltima actualización: " ++ jsOrStr p.lastUpdate "N/D"
        ++ "\nDocumentos: "
        ++ (let j := String.intercalate ", " p.documents
            if j.isEmpty then "—" else j)
        ++ "\nDescripción: " ++ p.description).data, ?_⟩
    have e1 : "%\nResponsable: ".data = '%' :: '\n' :: "Responsable: ".data := by
      decide
    have e2 : "\nÚltima actualización: ".data
        = '\n' :: "Última actualización: ".data := by decide
    have e3 : "Responsable: N/D".data
        = "Responsable: ".data ++ "N/D".data := by decide
    have e0 : jsOrStr (some "") "N/D" = "N/D" := by decide
    simp [snippet, hresp, e0, e1, e2, e3, List.append_assoc]
  · intro hlast
    show isSubL "Última actualización: N/D".data (snippet i p).data = true
    refine (isSubL_iff _ _).mpr ⟨("#" ++ toString (i + 1) ++ " " ++ p.name
      ++ "\nEstado: " ++ p.status ++ "\nAvance: " ++ jsNumOr p.progress "N/D"
      ++ "%\nResponsable: " ++ jsOrStr p.responsible "N/D" ++ "\n").data,
      ("\nDocumentos: "
        ++ (let j := String.intercalate ", " p.documents
            if j.isEmpty then "—" else j)
        ++ "\nDescripción: " ++ p.description).data, ?_⟩
    have e1 : "\nÚltima actualización: ".data
        = '\n' :: "Última actualización: ".data := by decide
    have e2 : "\nDocumentos: ".data = '\n' :: "Documentos: ".data := by decide
    have e3 : "Última actualización: N/D".data
        = "Última actualización: ".data ++ "N/D".data := by decide
    have e0 : jsOrStr (some "") "N/D" = "N/D" := by decide
    simp [snippet, hlast, e0, e1, e2, e3, List.append_assoc]

/-- C10, witness: at a record with `progress = 0`, empty responsible name
and empty last update, the snippet shows every fallback while the KPI
struct keeps the raw values. -/
theorem snippet_truthiness_fallback_witness :
    containsStr (snippet 0 truthyRec) "Avance: N/D%" = true
    ∧ containsStr (snippet 0 truthyRec) "Responsable: N/D" = true
    ∧ containsStr (snippet 0 truthyRec) "Última actualización: N/D" = true
    ∧ (kpisOf truthyRec).progress = truthyRec.progress :=
  ⟨(snippet_truthiness_fallback 0 truthyRec).2.1 rfl,
    (snippet_truthiness_fallback 0 truthyRec).2.2.1 rfl,
    (snippet_truthiness_fallback 0 truthyRec).2.2.2 rfl,
    (snippet_truthiness_fallback 0 truthyRec).1.1⟩
